import Mathlib

set_option autoImplicit false

/-!
Shallow embedding of the embedding-index core of the wtgallery repository
(src/indexer.py, src/models/clip.py, src/utils/validator.py).

Modelling conventions:
* Decoded image tensors and embedding vectors are abstracted to `Nat`; the
  encoder forward pass `get_image_features` acts row-wise, modelled by an
  abstract function `World.encode` applied to each surviving image of a batch.
* `PIL.Image` decoding of a path is an external effect, modelled by
  `World.decode`.  `load_image` in clip.py catches only
  `UnidentifiedImageError` (file present but not recognized as an image);
  every other exception (`FileNotFoundError` for a missing file, `OSError`
  for truncated image data raised at `convert`/load time) propagates, hence
  the three-way outcome `Decode.ok / Decode.unidentified / Decode.ioError`.
* Python `dict` is modelled as an insertion-ordered association list with
  unique keys: assignment to a present key overwrites in place, otherwise
  appends (`dictInsert`).
* `torch.save` / `torch.load` are modelled as an exact keyed file store
  (pickle serialization of a tensor dict round-trips bit-exactly).
* Cosine similarity on vectors is abstracted to `World.sim` returning an
  integer score (no claim under consideration depends on float values).
* The progress callback has Python type `ProgressCallback = None`-defaulted
  callable; invoking `None` raises `TypeError`.  The model records the
  argument pairs of the invocations instead of calling a function, and a
  `none` callback yields `PyErr.typeError` at the first invocation.
-/

/-- Exceptions the modelled Python code can raise. -/
inductive PyErr where
  /-- `TypeError: 'NoneType' object is not callable` from `progress_callback(...)`. -/
  | typeError
  /-- An uncaught exception escaping `load_image` (missing file, truncated image data). -/
  | osError
  /-- `FileNotFoundError` from `os.listdir` on a missing directory. -/
  | fileNotFound
  deriving DecidableEq, Repr

/-- Outcome of attempting to decode the file at a path with PIL. -/
inductive Decode where
  /-- The file decodes; `img` abstracts the preprocessed tensor. -/
  | ok (img : Nat)
  /-- `UnidentifiedImageError`: the only exception `load_image` catches. -/
  | unidentified
  /-- Any other exception (missing file, truncated data): not caught. -/
  | ioError
  deriving DecidableEq, Repr

/-- The external world: per-path decode outcome, the encoder forward pass
(row-wise), and cosine similarity between two vectors. -/
structure World where
  decode : String → Decode
  encode : Nat → Nat
  sim : Nat → Nat → Int

/-- An in-memory embedding mapping (`dict[str, torch.Tensor]`), as an
insertion-ordered association list with unique keys. -/
abbrev EmbeddingMapping := List (String × Nat)

/-- The embeddings directory: contents of each saved file by path. -/
abbrev FileStore := List (String × EmbeddingMapping)

/-- Python `k in d` for a dict modelled as an association list. -/
def dictContains {β : Type} (d : List (String × β)) (k : String) : Bool :=
  d.any (fun kv => kv.1 == k)

/-- Python `d[k] = v`: overwrite in place if the key is present (keys are
unique, so replacing the first occurrence is overwriting the occurrence),
else append at the end. -/
def dictInsert {β : Type} (d : List (String × β)) (k : String) (v : β) :
    List (String × β) :=
  match d with
  | [] => [(k, v)]
  | kv :: rest => if kv.1 == k then (k, v) :: rest else kv :: dictInsert rest k v

/-- Python `d.get(k)`: value of the (unique) entry with key `k`, if any. -/
def dictLookup {β : Type} (d : List (String × β)) (k : String) : Option β :=
  match d with
  | [] => none
  | kv :: rest => if kv.1 == k then some kv.2 else dictLookup rest k

/-- Python `d.keys()` in insertion order. -/
def dictKeys {β : Type} (d : List (String × β)) : List String :=
  d.map (fun kv => kv.1)

/-- Python `{**e, **n}`: entries of `n` assigned into `e` left to right. -/
def dictMerge {β : Type} (e n : List (String × β)) : List (String × β) :=
  n.foldl (fun d kv => dictInsert d kv.1 kv.2) e

/-- `CLIPModelWrapper.load_image` (clip.py:46-63): decode+preprocess one path.
`UnidentifiedImageError` is caught (warning logged, `None` returned); any
other exception propagates. -/
def load_image (w : World) (p : String) : Except PyErr (Option Nat) :=
  match w.decode p with
  | .ok i => .ok (some i)
  | .unidentified => .ok none
  | .ioError => .error .osError

/-- The list comprehension `[self.load_image(p) for p in batch_image_paths]`
evaluated left to right; second component counts warnings logged (one per
`UnidentifiedImageError`) before an uncaught exception, if any. -/
def batchLoad (w : World) : List String → Except PyErr (List (Option Nat)) × Nat
  | [] => (.ok [], 0)
  | p :: ps =>
    match w.decode p with
    | .ioError => (.error .osError, 0)
    | .unidentified =>
      let r := batchLoad w ps
      (r.1.map (fun l => none :: l), r.2 + 1)
    | .ok i =>
      let r := batchLoad w ps
      (r.1.map (fun l => some i :: l), r.2)

/-- Structural helper for `chunkList`: `fuel` bounds the recursion depth and
is immaterial once it is at least the list length (`chunkListAux_fuel`). -/
def chunkListAux {α : Type} (bs : Nat) : Nat → List α → List (List α)
  | 0, _ => []
  | _, [] => []
  | fuel + 1, a :: l => (a :: l.take (bs - 1)) :: chunkListAux bs fuel (l.drop (bs - 1))

/-- The batch slices `image_paths[i:i+batch_size]` for `i in
range(0, len(image_paths), batch_size)` (requires `bs ≥ 1`, as in the
source where `batch_size` defaults to 768). -/
def chunkList {α : Type} (bs : Nat) (l : List α) : List (List α) :=
  chunkListAux bs l.length l

instance {ε α : Type} [DecidableEq ε] [DecidableEq α] : DecidableEq (Except ε α) :=
  fun x y =>
    match x, y with
    | .error a, .error b =>
      if h : a = b then isTrue (congrArg Except.error h)
      else isFalse (fun hc => h (Except.error.inj hc))
    | .error _, .ok _ => isFalse (fun hc => Except.noConfusion hc)
    | .ok _, .error _ => isFalse (fun hc => Except.noConfusion hc)
    | .ok a, .ok b =>
      if h : a = b then isTrue (congrArg Except.ok h)
      else isFalse (fun hc => h (Except.ok.inj hc))

/-- Observable outcome of a pipeline run: the returned mapping (or the
escaped exception), the progress-callback invocations in order, the number
of encoder forward passes, and the number of decode-failure warnings. -/
structure ChunkOut where
  result : Except PyErr EmbeddingMapping
  calls : List (Nat × Nat)
  encoderRuns : Nat
  warnings : Nat
  deriving DecidableEq, Repr

/-- The batch loop of `create_image_embeddings_from_paths` (clip.py:161-191).
Per batch: load every path; drop undecodable images; if none survive,
`continue` (no encoder run, no progress call); otherwise run one forward
pass, scatter the resulting vectors over `batch_image_paths[:len(batch_images)]`
(the FIRST `k` paths of the batch, where `k` is the number of surviving
images — the `batch_images[j] is not None` guard in the source is vacuous
after `torch.cat`), add the batch LENGTH to `current`, and invoke the
callback with `(current, total)`. -/
def runChunks (w : World) (total : Nat) :
    List (List String) → EmbeddingMapping → Nat → ChunkOut
  | [], emb, _ => ⟨.ok emb, [], 0, 0⟩
  | b :: rest, emb, current =>
    match batchLoad w b with
    | (.error e, warns) => ⟨.error e, [], 0, warns⟩
    | (.ok loaded, warns) =>
      let imgs := loaded.filterMap id
      if imgs.isEmpty then
        let o := runChunks w total rest emb current
        ⟨o.result, o.calls, o.encoderRuns, warns + o.warnings⟩
      else
        let feats := imgs.map w.encode
        let emb2 := ((b.take imgs.length).zip feats).foldl
          (fun d kv => dictInsert d kv.1 kv.2) emb
        let cur2 := current + b.length
        let o := runChunks w total rest emb2 cur2
        ⟨o.result, (cur2, total) :: o.calls, o.encoderRuns + 1, warns + o.warnings⟩

/-- `CLIPModelWrapper.create_image_embeddings_from_paths` (clip.py:150-192).
`progress_callback(0, total)` is invoked unconditionally before the loop;
with the default `None` callback this raises `TypeError` before any image
is loaded or any batch is processed. -/
def create_image_embeddings_from_paths (w : World) (bs : Nat)
    (paths : List String) (cb : Option Unit) : ChunkOut :=
  match cb with
  | none => ⟨.error .typeError, [], 0, 0⟩
  | some _ =>
    let o := runChunks w paths.length (chunkList bs paths) [] 0
    ⟨o.result, (0, paths.length) :: o.calls, o.encoderRuns, o.warnings⟩

/-- The filesystem as seen through `os` / `pathlib`: the set of existing
directories, the `(root, files)` pairs `os.walk` yields under a root
(for a nonexistent root, `os.walk` yields nothing), and the entries
`os.listdir` returns for an existing directory (on a missing directory it
raises `FileNotFoundError`). -/
structure FS where
  dirs : List String
  walk : String → List (String × List String)
  listdir : String → List String

/-- `IMG_EXTENSIONS` (validator.py:1). -/
def IMG_EXTENSIONS : List String :=
  [".jpg", ".jpeg", ".png", ".ppm", ".bmp", ".gif", ".pgm", ".tif", ".tiff", ".webp"]

/-- Python `str.lower()`, per character (the filenames of the development
are ASCII, where Unicode and ASCII lowering agree). -/
def strLower (s : String) : String := ⟨s.data.map Char.toLower⟩

/-- Python `str.endswith(suffix)`. -/
def strEndsWith (s suffix : String) : Bool :=
  suffix.data.isSuffixOf s.data

/-- `is_image_file` (validator.py:4-5): lowercased filename ends with one of
the recognized extensions. -/
def is_image_file (filename : String) : Bool :=
  IMG_EXTENSIONS.any (fun ext => strEndsWith (strLower filename) ext)

/-- `os.path.join(root, file)`. -/
def pathJoin (root file : String) : String := root ++ "/" ++ file

/-- `Indexer.scan_directory` (indexer.py:19-29).  Recursive branch walks with
`os.walk` (a missing root silently yields nothing); non-recursive branch
calls `os.listdir`, which raises `FileNotFoundError` on a missing root. -/
def Indexer.scan_directory (fs : FS) (image_folder : String)
    (include_subdirs : Bool) : Except PyErr (List String) :=
  if include_subdirs then
    .ok ((fs.walk image_folder).flatMap
      (fun rf => (rf.2.filter is_image_file).map (pathJoin rf.1)))
  else if fs.dirs.contains image_folder then
    .ok (((fs.listdir image_folder).filter is_image_file).map (pathJoin image_folder))
  else .error .fileNotFound

/-- The flattened list comprehension over `image_folders` used by both
`create_image_embeddings` (indexer.py:40-44) and `update_image_embeddings`
(indexer.py:95-99): scans concatenated left to right, the first exception
propagating. -/
def scanFolders (fs : FS) (inc : Bool) : List String → Except PyErr (List String)
  | [] => .ok []
  | f :: rest =>
    match Indexer.scan_directory fs f inc with
    | .error e => .error e
    | .ok a =>
      match scanFolders fs inc rest with
      | .error e => .error e
      | .ok b => .ok (a ++ b)

/-- `Indexer.create_image_embeddings` (indexer.py:31-45): concatenate the
per-folder scans (no deduplication) and run the batch pipeline. -/
def Indexer.create_image_embeddings (w : World) (fs : FS) (bs : Nat)
    (image_folders : List String) (include_subdirs : Bool) (cb : Option Unit) :
    ChunkOut :=
  match scanFolders fs include_subdirs image_folders with
  | .error e => ⟨.error e, [], 0, 0⟩
  | .ok paths => create_image_embeddings_from_paths w bs paths cb

/-- First-occurrence deduplication; stands for `set(new_image_paths)` whose
iteration order Python leaves unspecified (every claim settled over it is
insensitive to the order of the resulting list). -/
def dedupFirst : List String → List String
  | [] => []
  | p :: ps => p :: (dedupFirst ps).filter (fun q => q != p)

/-- `images_to_add = set(new_image_paths) - current_image_paths`
(indexer.py:102), as a list. -/
def imagesToAdd (existing : EmbeddingMapping) (discovered : List String) :
    List String :=
  (dedupFirst discovered).filter (fun p => ! dictContains existing p)

/-- Outcome of `Indexer.update_image_embeddings`: result or exception, the
pipeline trace, and whether the `"No new images to be processed"` branch
was taken. -/
structure UpdateOut where
  result : Except PyErr EmbeddingMapping
  calls : List (Nat × Nat)
  encoderRuns : Nat
  warnings : Nat
  noNewImages : Bool
  deriving DecidableEq, Repr

/-- `Indexer.update_image_embeddings` (indexer.py:81-118): scan, subtract the
existing keys, return the existing mapping untouched when nothing is new,
otherwise embed only the new paths and merge `{**existing, **new}`. -/
def Indexer.update_image_embeddings (w : World) (fs : FS) (bs : Nat)
    (existing : EmbeddingMapping) (image_folders : List String)
    (include_subdirs : Bool) (cb : Option Unit) : UpdateOut :=
  match scanFolders fs include_subdirs image_folders with
  | .error e => ⟨.error e, [], 0, 0, false⟩
  | .ok discovered =>
    let toAdd := imagesToAdd existing discovered
    if toAdd.isEmpty then ⟨.ok existing, [], 0, 0, true⟩
    else
      let o := create_image_embeddings_from_paths w bs toAdd cb
      match o.result with
      | .error e => ⟨.error e, o.calls, o.encoderRuns, o.warnings, false⟩
      | .ok newEmb =>
        ⟨.ok (dictMerge existing newEmb), o.calls, o.encoderRuns, o.warnings, false⟩

/-- `Indexer.save_image_embeddings` (indexer.py:120-122): `torch.save` of the
whole mapping to the file at `save_path`, modelled as an exact store. -/
def Indexer.save_image_embeddings (store : FileStore) (m : EmbeddingMapping)
    (save_path : String) : FileStore :=
  dictInsert store save_path m

/-- `Indexer.load_image_embeddings` (indexer.py:124-127): `torch.load`;
`none` models the raise on a missing file. -/
def Indexer.load_image_embeddings (store : FileStore) (load_path : String) :
    Option EmbeddingMapping :=
  dictLookup store load_path

/-- Outcome of `Indexer.index`: the file store afterwards, the result or
escaped exception, the pipeline trace, and which log branches were taken. -/
structure IndexOut where
  store : FileStore
  result : Except PyErr Unit
  calls : List (Nat × Nat)
  encoderRuns : Nat
  warnings : Nat
  noProcessableDirs : Bool
  noNewImages : Bool
  deriving DecidableEq, Repr

/-- `Indexer.index` (indexer.py:129-162).  Count the missing roots (warning
each); return early iff every root is missing; otherwise take the update
path when the embeddings file exists, else the fresh-create path, and save
the resulting mapping.  Missing roots are NOT removed from the list passed
on to the scans. -/
def Indexer.index (w : World) (fs : FS) (bs : Nat) (store : FileStore)
    (filepath : String) (image_folders : List String) (include_subdirs : Bool)
    (cb : Option Unit) : IndexOut :=
  let notFound := (image_folders.filter (fun f => ! fs.dirs.contains f)).length
  if image_folders.length = notFound then
    ⟨store, .ok (), [], 0, 0, true, false⟩
  else
    match Indexer.load_image_embeddings store filepath with
    | some existing =>
      let u := Indexer.update_image_embeddings w fs bs existing image_folders
        include_subdirs cb
      match u.result with
      | .error e =>
        ⟨store, .error e, u.calls, u.encoderRuns, u.warnings, false, u.noNewImages⟩
      | .ok merged =>
        ⟨Indexer.save_image_embeddings store merged filepath, .ok (),
          u.calls, u.encoderRuns, u.warnings, false, u.noNewImages⟩
    | none =>
      let c := Indexer.create_image_embeddings w fs bs image_folders
        include_subdirs cb
      match c.result with
      | .error e =>
        ⟨store, .error e, c.calls, c.encoderRuns, c.warnings, false, false⟩
      | .ok emb =>
        ⟨Indexer.save_image_embeddings store emb filepath, .ok (),
          c.calls, c.encoderRuns, c.warnings, false, false⟩

/-- Insert one scored entry into a list sorted by descending score (relative
order of equal scores is not relied upon by any claim). -/
def insertDesc (x : String × Int) : List (String × Int) → List (String × Int)
  | [] => [x]
  | y :: ys => if y.2 < x.2 then x :: y :: ys else y :: insertDesc x ys

/-- `sorted(similarity_scores.items(), key=score, reverse=True)`. -/
def sortByScoreDesc (l : List (String × Int)) : List (String × Int) :=
  l.foldr insertDesc []

/-- `CLIPModelWrapper.search_images_by_image` (clip.py:101-147): load the
query (`None`, i.e. `UnidentifiedImageError`, yields `[]`; any other
exception propagates), score every entry except the one whose key equals
the query path verbatim, and sort descending by score. -/
def search_images_by_image (w : World) (image_embeddings : EmbeddingMapping)
    (query_image_path : String) : Except PyErr (List (String × Int)) :=
  match load_image w query_image_path with
  | .error e => .error e
  | .ok none => .ok []
  | .ok (some qi) =>
    let qf := w.encode qi
    let scores := (image_embeddings.filter (fun kv => kv.1 != query_image_path)).map
      (fun kv => (kv.1, w.sim kv.2 qf))
    .ok (sortByScoreDesc scores)

/-- Total length of a list of batches. -/
def sumLen (l : List (List String)) : Nat :=
  (l.map List.length).sum

/-- A world in which every file decodes (to the tensor 7). -/
def wOk : World := ⟨fun _ => .ok 7, fun i => i + 100, fun a b => a + b⟩

/-- World for the scatter scenario: `corrupt.jpg` raises
`UnidentifiedImageError`, `valid.jpg` decodes to the tensor 5. -/
def wC1 : World :=
  ⟨fun p => if p = "corrupt.jpg" then .unidentified
    else if p = "valid.jpg" then .ok 5 else .ok 0,
   fun i => i + 100, fun a b => a + b⟩

/-- World for the re-index scenario: `D/bad.jpg` raises
`UnidentifiedImageError`, everything else decodes. -/
def wC3 : World :=
  ⟨fun p => if p = "D/bad.jpg" then .unidentified
    else if p = "D/good.jpg" then .ok 7 else .ok 9,
   fun i => i + 100, fun a b => a + b⟩

/-- A filesystem with the single directory `D` holding `bad.jpg` and
`good.jpg`. -/
def fsC3 : FS :=
  ⟨["D"],
   fun r => if r = "D" then [("D", ["bad.jpg", "good.jpg"])] else [],
   fun r => if r = "D" then ["bad.jpg", "good.jpg"] else []⟩

/-- First `index` call of the re-index scenario (fresh store). -/
def c3run1 : IndexOut :=
  Indexer.index wC3 fsC3 768 [] "emb.pt" ["D"] true (some ())

/-- Second `index` call of the re-index scenario, on the store persisted by
the first call, with no filesystem change. -/
def c3run2 : IndexOut :=
  Indexer.index wC3 fsC3 768 c3run1.store "emb.pt" ["D"] true (some ())

/-- World where `u.jpg` raises `UnidentifiedImageError` and all else decodes. -/
def wC5 : World :=
  ⟨fun p => if p = "u.jpg" then .unidentified else .ok 0,
   fun i => i + 100, fun a b => a + b⟩

/-- A filesystem with the single directory `D` holding one image `a.jpg`. -/
def fsC6 : FS :=
  ⟨["D"],
   fun r => if r = "D" then [("D", ["a.jpg"])] else [],
   fun r => if r = "D" then ["a.jpg"] else []⟩

/-- World where the query `q.jpg` raises `UnidentifiedImageError`. -/
def wC8 : World :=
  ⟨fun p => if p = "q.jpg" then .unidentified else .ok 3,
   fun i => i + 100, fun a b => a + b⟩

/-- World where `trunc.jpg` fails with an uncaught exception (e.g. truncated
image data raising `OSError`). -/
def wC9 : World :=
  ⟨fun p => if p = "trunc.jpg" then .ioError else .ok 3,
   fun i => i + 100, fun a b => a + b⟩

/-- A filesystem with the single directory `D` holding one image `good.jpg`. -/
def fsC10 : FS :=
  ⟨["D"],
   fun r => if r = "D" then [("D", ["good.jpg"])] else [],
   fun r => if r = "D" then ["good.jpg"] else []⟩

/-- A store whose embeddings file already covers every image under `D`. -/
def preStoreC10 : FileStore := [("emb.pt", [("D/good.jpg", 107)])]

/-- A filesystem with the single directory `D` holding one image `new.jpg`. -/
def fsW2 : FS :=
  ⟨["D"],
   fun r => if r = "D" then [("D", ["new.jpg"])] else [],
   fun r => if r = "D" then ["new.jpg"] else []⟩

theorem dictLookup_dictInsert_self {β : Type} (d : List (String × β)) (k : String)
    (v : β) : dictLookup (dictInsert d k v) k = some v := by
  induction d with
  | nil => simp [dictInsert, dictLookup]
  | cons kv rest ih =>
    cases h : kv.1 == k with
    | true => simp [dictInsert, h, dictLookup]
    | false => simp [dictInsert, h, dictLookup, ih]

theorem dictLookup_dictInsert_ne {β : Type} (d : List (String × β)) (k k2 : String)
    (v : β) (h : k2 ≠ k) : dictLookup (dictInsert d k v) k2 = dictLookup d k2 := by
  have hk : (k == k2) = false := beq_false_of_ne (fun hc => h hc.symm)
  induction d with
  | nil => simp [dictInsert, dictLookup, hk]
  | cons kv rest ih =>
    cases hh : kv.1 == k with
    | true =>
      have hkv : kv.1 = k := eq_of_beq hh
      simp [dictInsert, hh, dictLookup, hk, hkv]
    | false => simp [dictInsert, hh, dictLookup, ih]

theorem mem_dictKeys_dictInsert {β : Type} (d : List (String × β)) (k k2 : String)
    (v : β) : k2 ∈ dictKeys (dictInsert d k v) ↔ k2 ∈ dictKeys d ∨ k2 = k := by
  induction d with
  | nil => simp [dictInsert, dictKeys]
  | cons kv rest ih =>
    cases h : kv.1 == k with
    | true =>
      have hkv : kv.1 = k := eq_of_beq h
      simp [dictInsert, h, dictKeys, hkv]
      tauto
    | false =>
      simp only [dictInsert, h, Bool.false_eq_true, ite_false, dictKeys,
        List.map_cons, List.mem_cons] at ih ⊢
      rw [ih]
      tauto

theorem dictInsert_dictInsert_same {β : Type} (d : List (String × β)) (k : String)
    (v : β) : dictInsert (dictInsert d k v) k v = dictInsert d k v := by
  induction d with
  | nil => simp [dictInsert]
  | cons kv rest ih =>
    cases h : kv.1 == k with
    | true => simp [dictInsert, h]
    | false => simp [dictInsert, h, ih]

theorem mem_dedupFirst (l : List String) (p : String) :
    p ∈ dedupFirst l ↔ p ∈ l := by
  induction l with
  | nil => simp [dedupFirst]
  | cons a rest ih =>
    simp only [dedupFirst, List.mem_cons, List.mem_filter, ih]
    constructor
    · rintro (h | ⟨h, _⟩)
      · exact Or.inl h
      · exact Or.inr h
    · rintro (h | h)
      · exact Or.inl h
      · by_cases hp : p = a
        · exact Or.inl hp
        · refine Or.inr ⟨h, ?_⟩
          simp [hp]

theorem nodup_dedupFirst (l : List String) : (dedupFirst l).Nodup := by
  induction l with
  | nil => simp [dedupFirst]
  | cons a rest ih =>
    simp only [dedupFirst, List.nodup_cons]
    constructor
    · intro hmem
      have h2 := (List.mem_filter.mp hmem).2
      simp at h2
    · exact ih.filter _

/-- C4: loading after saving round-trips exactly — for every embedding
mapping `m`, file store and storage path `p`,
`load_image_embeddings p` after `save_image_embeddings m p` returns exactly
`m`: same keys, identical vectors. -/
theorem c4_save_load_roundtrip (store : FileStore) (m : EmbeddingMapping)
    (p : String) :
    Indexer.load_image_embeddings (Indexer.save_image_embeddings store m p) p
      = some m := by
  unfold Indexer.load_image_embeddings Indexer.save_image_embeddings
  exact dictLookup_dictInsert_self store p m

/-- C1: evaluation of the scatter slip at a failing input.  In one batch
`["corrupt.jpg", "valid.jpg"]` where `corrupt.jpg` is undecodable and
`valid.jpg` decodes to tensor 5, the pipeline stores the valid image's
vector (`encode 5 = 105`) under the key `corrupt.jpg` — the undecodable
path receives an entry and the valid path receives none, because the
surviving vectors are scattered over `batch_image_paths[:len(batch_images)]`
instead of over the surviving paths. -/
theorem c1_scatter_bug_eval :
    (create_image_embeddings_from_paths wC1 2
        ["corrupt.jpg", "valid.jpg"] (some ())).result
      = .ok [("corrupt.jpg", 105)]
    ∧ (create_image_embeddings_from_paths wC1 2
        ["corrupt.jpg", "valid.jpg"] (some ())).warnings = 1
    ∧ wC1.encode 5 = 105
    ∧ wC1.decode "corrupt.jpg" = .unidentified
    ∧ wC1.decode "valid.jpg" = .ok 5 := by decide

/-- C3 counterexample: with `D` holding an undecodable `bad.jpg` and a
decodable `good.jpg`, the first `index` call persists (because of the
scatter slip) the mapping `{D/bad.jpg ↦ 107}`; the second call, with no
filesystem change, finds the non-empty new-path set `{D/good.jpg}`, does
not report "no new images", invokes the encoder once more, and persists a
different (larger) mapping — refuting idempotence as claimed. -/
theorem c3_second_index_not_idempotent :
    c3run2.noNewImages = false
    ∧ c3run2.encoderRuns = 1
    ∧ c3run2.store ≠ c3run1.store
    ∧ Indexer.load_image_embeddings c3run1.store "emb.pt"
        = some [("D/bad.jpg", 107)]
    ∧ Indexer.load_image_embeddings c3run2.store "emb.pt"
        = some [("D/bad.jpg", 107), ("D/good.jpg", 107)] := by decide

/-- C5 counterexample: a run whose single batch consists only of the
undecodable `u.jpg` makes exactly one progress call, `(0, 1)`; no call ever
reaches `current = total`, because the `continue` for an empty batch skips
the increment and the callback. -/
theorem c5_no_final_call_on_empty_batch :
    (create_image_embeddings_from_paths wC5 1 ["u.jpg"] (some ())).calls = [(0, 1)]
    ∧ ∀ c ∈ (create_image_embeddings_from_paths wC5 1 ["u.jpg"] (some ())).calls,
        c.1 ≠ c.2 := by decide

/-- C6 counterexample: the candidate list handed to the embedding pipeline
by the fresh-index path (`Indexer.create_image_embeddings` concatenates the
per-root scans) is NOT deduplicated: with the root `D` passed twice, the
single image `D/a.jpg` occurs twice. -/
theorem c6_duplicate_roots_duplicate_candidates :
    scanFolders fsC6 true ["D", "D"] = .ok ["D/a.jpg", "D/a.jpg"]
    ∧ ¬ (["D/a.jpg", "D/a.jpg"] : List String).Nodup := by decide

/-- C7 counterexample: a missing root among existing ones is warned about
but NOT removed from the list passed to the scans; with
`include_subdirs = false` the scan calls `os.listdir` on the missing root,
so `index(["missing", "D"], include_subdirs=False)` aborts with
`FileNotFoundError` instead of skipping the root. -/
theorem c7_missing_root_aborts_nonrecursive :
    (Indexer.index wOk fsC6 768 [] "emb.pt" ["missing", "D"] false (some ())).result
      = .error .fileNotFound
    ∧ "missing" ∉ fsC6.dirs
    ∧ "D" ∈ fsC6.dirs := by decide

/-- C8 counterexample: when the query image itself fails to decode
(`UnidentifiedImageError`), the search returns the empty list, so the other
key `other.jpg` of the mapping does NOT appear in the result. -/
theorem c8_undecodable_query_hides_other_keys :
    search_images_by_image wC8 [("q.jpg", 5), ("other.jpg", 6)] "q.jpg" = .ok []
    ∧ "other.jpg" ∈ dictKeys [("q.jpg", 5), ("other.jpg", 6)]
    ∧ "other.jpg" ≠ "q.jpg" := by decide

/-- C9 counterexample: a query whose file cannot be decoded because its
image data is truncated (PIL raises `OSError`, which the
`except UnidentifiedImageError` clause does not catch) makes
`search_images_by_image` raise rather than return an empty list. -/
theorem c9_truncated_query_raises :
    search_images_by_image wC9 [("a.jpg", 1)] "trunc.jpg" = .error .osError
    ∧ ∀ l : List (String × Int),
        search_images_by_image wC9 [("a.jpg", 1)] "trunc.jpg" ≠ .ok l := by
  have h1 : search_images_by_image wC9 [("a.jpg", 1)] "trunc.jpg"
      = .error .osError := by decide
  refine ⟨h1, fun l h => ?_⟩
  rw [h1] at h
  exact Except.noConfusion h

/-- C10 counterexample: `Indexer.index` called with the default `None`
progress callback does NOT always raise — when prior storage already covers
every discovered path, the update path computes an empty new-path set and
returns before the pipeline (and hence before the callback) is ever
invoked, completing normally. -/
theorem c10_index_none_callback_can_succeed :
    (Indexer.index wOk fsC10 768 preStoreC10 "emb.pt" ["D"] true none).result
      = .ok ()
    ∧ (Indexer.index wOk fsC10 768 preStoreC10 "emb.pt" ["D"] true none).noNewImages
      = true := by decide

theorem chunkListAux_congr {α : Type} (bs : Nat) :
    ∀ (f1 f2 : Nat) (l : List α), l.length ≤ f1 → l.length ≤ f2 →
      chunkListAux bs f1 l = chunkListAux bs f2 l := by
  intro f1
  induction f1 with
  | zero =>
    intro f2 l h1 _
    have hl : l = [] := List.eq_nil_of_length_eq_zero (Nat.le_zero.mp h1)
    subst hl
    cases f2 <;> rfl
  | succ f ih =>
    intro f2 l h1 h2
    cases l with
    | nil => cases f2 <;> rfl
    | cons a tail =>
      cases f2 with
      | zero => simp at h2
      | succ g =>
        simp only [chunkListAux]
        congr 1
        have hd : (tail.drop (bs - 1)).length ≤ tail.length := by
          simp [List.length_drop]
        exact ih g (tail.drop (bs - 1))
          (Nat.le_trans hd (Nat.le_of_succ_le_succ h1))
          (Nat.le_trans hd (Nat.le_of_succ_le_succ h2))

theorem chunkList_nil {α : Type} (bs : Nat) : chunkList bs ([] : List α) = [] := rfl

theorem chunkList_cons {α : Type} (bs : Nat) (a : α) (l : List α) :
    chunkList bs (a :: l)
      = (a :: l.take (bs - 1)) :: chunkList bs (l.drop (bs - 1)) := by
  show chunkListAux bs (l.length + 1) (a :: l) = _
  simp only [chunkListAux]
  congr 1
  exact chunkListAux_congr bs l.length (l.drop (bs - 1)).length (l.drop (bs - 1))
    (by simp [List.length_drop]) (Nat.le_refl _)

theorem mem_chunkList {α : Type} (bs : Nat) (l : List α) (p : α) :
    p ∈ l ↔ ∃ b, b ∈ chunkList bs l ∧ p ∈ b := by
  suffices h : ∀ (n : Nat) (l : List α), l.length = n →
      (p ∈ l ↔ ∃ b, b ∈ chunkList bs l ∧ p ∈ b) from h l.length l rfl
  intro n
  induction n using Nat.strong_induction_on with
  | _ n ih =>
    intro l hn
    cases l with
    | nil => simp [chunkList_nil]
    | cons a tail =>
      rw [chunkList_cons]
      have htd : tail.take (bs - 1) ++ tail.drop (bs - 1) = tail :=
        List.take_append_drop _ _
      have hlen : (tail.drop (bs - 1)).length < n := by
        subst hn
        simp only [List.length_cons, List.length_drop]
        omega
      have ihd := ih _ hlen (tail.drop (bs - 1)) rfl
      constructor
      · intro hp
        rcases List.mem_cons.mp hp with h | h
        · exact ⟨a :: tail.take (bs - 1), List.mem_cons_self _ _,
            by simp [h]⟩
        · rw [← htd] at h
          rcases List.mem_append.mp h with h2 | h2
          · exact ⟨a :: tail.take (bs - 1), List.mem_cons_self _ _,
              List.mem_cons_of_mem _ h2⟩
          · rcases ihd.mp h2 with ⟨b, hb, hpb⟩
            exact ⟨b, List.mem_cons_of_mem _ hb, hpb⟩
      · rintro ⟨b, hb, hpb⟩
        rcases List.mem_cons.mp hb with h | h
        · subst h
          rcases List.mem_cons.mp hpb with h2 | h2
          · exact List.mem_cons.mpr (Or.inl h2)
          · refine List.mem_cons_of_mem _ ?_
            rw [← htd]
            exact List.mem_append.mpr (Or.inl h2)
        · refine List.mem_cons_of_mem _ ?_
          rw [← htd]
          exact List.mem_append.mpr (Or.inr (ihd.mpr ⟨b, h, hpb⟩))

theorem sumLen_cons (b : List String) (rest : List (List String)) :
    sumLen (b :: rest) = b.length + sumLen rest := by
  simp [sumLen]

theorem sumLen_chunkList (bs : Nat) (l : List String) :
    sumLen (chunkList bs l) = l.length := by
  suffices h : ∀ (n : Nat) (l : List String), l.length = n →
      sumLen (chunkList bs l) = l.length from h l.length l rfl
  intro n
  induction n using Nat.strong_induction_on with
  | _ n ih =>
    intro l hn
    cases l with
    | nil => simp [chunkList_nil, sumLen]
    | cons a tail =>
      rw [chunkList_cons, sumLen_cons]
      have hlen : (tail.drop (bs - 1)).length < n := by
        subst hn
        simp only [List.length_cons, List.length_drop]
        omega
      rw [ih _ hlen (tail.drop (bs - 1)) rfl]
      subst hn
      simp only [List.length_cons, List.length_take, List.length_drop]
      omega

theorem ne_nil_of_mem_chunkList {α : Type} (bs : Nat) (l : List α)
    (b : List α) (hb : b ∈ chunkList bs l) : b ≠ [] := by
  suffices h : ∀ (n : Nat) (l : List α), l.length = n →
      b ∈ chunkList bs l → b ≠ [] from h l.length l rfl hb
  intro n
  induction n using Nat.strong_induction_on with
  | _ n ih =>
    intro l hn hbl
    cases l with
    | nil => simp [chunkList_nil] at hbl
    | cons a tail =>
      rw [chunkList_cons] at hbl
      rcases List.mem_cons.mp hbl with h | h
      · subst h
        simp
      · have hlen : (tail.drop (bs - 1)).length < n := by
          subst hn
          simp only [List.length_cons, List.length_drop]
          omega
        exact ih _ hlen (tail.drop (bs - 1)) rfl h

theorem batchLoad_allok (w : World) (b : List String)
    (h : ∀ p ∈ b, ∃ i, w.decode p = Decode.ok i) :
    ∃ loaded, batchLoad w b = (.ok loaded, 0)
      ∧ (loaded.filterMap id).length = b.length := by
  induction b with
  | nil => exact ⟨[], rfl, rfl⟩
  | cons p ps ih =>
    rcases h p (List.mem_cons_self _ _) with ⟨i, hi⟩
    rcases ih (fun q hq => h q (List.mem_cons_of_mem _ hq)) with ⟨loaded, hl, hlen⟩
    refine ⟨some i :: loaded, ?_, ?_⟩
    · simp [batchLoad, hi, hl, Except.map]
    · simp [List.filterMap_cons, hlen]

theorem dictContains_iff {β : Type} (d : List (String × β)) (k : String) :
    dictContains d k = true ↔ k ∈ dictKeys d := by
  simp only [dictContains, dictKeys, List.any_eq_true, List.mem_map]
  constructor
  · rintro ⟨kv, hkv, hbeq⟩
    exact ⟨kv, hkv, eq_of_beq hbeq⟩
  · rintro ⟨kv, hkv, heq⟩
    exact ⟨kv, hkv, beq_iff_eq.mpr heq⟩

theorem mem_dictKeys_foldInsert {β : Type} (pairs : List (String × β)) :
    ∀ (d : List (String × β)) (k : String),
      k ∈ dictKeys (pairs.foldl (fun d kv => dictInsert d kv.1 kv.2) d)
        ↔ k ∈ dictKeys d ∨ k ∈ pairs.map Prod.fst := by
  induction pairs with
  | nil => simp
  | cons kv rest ih =>
    intro d k
    simp only [List.foldl_cons, List.map_cons, List.mem_cons]
    rw [ih (dictInsert d kv.1 kv.2) k, mem_dictKeys_dictInsert]
    tauto

theorem dictLookup_dictMerge_not_mem {β : Type} (n : List (String × β)) :
    ∀ (e : List (String × β)) (k : String), k ∉ dictKeys n →
      dictLookup (dictMerge e n) k = dictLookup e k := by
  induction n with
  | nil => intro e k _; rfl
  | cons kv rest ih =>
    intro e k hk
    simp only [dictKeys, List.map_cons, List.mem_cons] at hk
    push_neg at hk
    have h1 : dictMerge e (kv :: rest)
        = dictMerge (dictInsert e kv.1 kv.2) rest := rfl
    rw [h1, ih (dictInsert e kv.1 kv.2) k (by simpa [dictKeys] using hk.2),
      dictLookup_dictInsert_ne _ _ _ _ hk.1]

theorem mem_dictKeys_dictMerge {β : Type} (n : List (String × β)) :
    ∀ (e : List (String × β)) (k : String),
      k ∈ dictKeys (dictMerge e n) ↔ k ∈ dictKeys e ∨ k ∈ dictKeys n := by
  induction n with
  | nil => simp [dictMerge, dictKeys]
  | cons kv rest ih =>
    intro e k
    have h1 : dictMerge e (kv :: rest)
        = dictMerge (dictInsert e kv.1 kv.2) rest := rfl
    rw [h1, ih (dictInsert e kv.1 kv.2) k, mem_dictKeys_dictInsert]
    simp only [dictKeys, List.map_cons, List.mem_cons]
    tauto

theorem mem_insertDesc (x y : String × Int) (l : List (String × Int)) :
    x ∈ insertDesc y l ↔ x = y ∨ x ∈ l := by
  induction l with
  | nil => simp [insertDesc]
  | cons z zs ih =>
    simp only [insertDesc]
    by_cases h : z.2 < y.2
    · simp [h]
    · simp only [h, ite_false, List.mem_cons, ih]
      tauto

theorem mem_sortByScoreDesc (x : String × Int) (l : List (String × Int)) :
    x ∈ sortByScoreDesc l ↔ x ∈ l := by
  induction l with
  | nil => simp [sortByScoreDesc]
  | cons z zs ih =>
    simp only [sortByScoreDesc, List.foldr_cons] at ih ⊢
    rw [mem_insertDesc, ih, List.mem_cons]

theorem runChunks_cons_error (w : World) (total : Nat) (b : List String)
    (rest : List (List String)) (emb : EmbeddingMapping) (current : Nat)
    (e : PyErr) (warns : Nat) (hbl : batchLoad w b = (.error e, warns)) :
    runChunks w total (b :: rest) emb current = ⟨.error e, [], 0, warns⟩ := by
  simp [runChunks, hbl]

theorem runChunks_cons_skip (w : World) (total : Nat) (b : List String)
    (rest : List (List String)) (emb : EmbeddingMapping) (current : Nat)
    (loaded : List (Option Nat)) (warns : Nat)
    (hbl : batchLoad w b = (.ok loaded, warns))
    (he : loaded.filterMap id = []) :
    runChunks w total (b :: rest) emb current
      = ⟨(runChunks w total rest emb current).result,
         (runChunks w total rest emb current).calls,
         (runChunks w total rest emb current).encoderRuns,
         warns + (runChunks w total rest emb current).warnings⟩ := by
  simp [runChunks, hbl, he]

theorem runChunks_cons_go (w : World) (total : Nat) (b : List String)
    (rest : List (List String)) (emb : EmbeddingMapping) (current : Nat)
    (loaded : List (Option Nat)) (warns : Nat)
    (hbl : batchLoad w b = (.ok loaded, warns))
    (he : loaded.filterMap id ≠ []) :
    runChunks w total (b :: rest) emb current
      = ⟨(runChunks w total rest
            (((b.take (loaded.filterMap id).length).zip
                ((loaded.filterMap id).map w.encode)).foldl
              (fun d kv => dictInsert d kv.1 kv.2) emb)
            (current + b.length)).result,
         (current + b.length, total)
           :: (runChunks w total rest
                (((b.take (loaded.filterMap id).length).zip
                    ((loaded.filterMap id).map w.encode)).foldl
                  (fun d kv => dictInsert d kv.1 kv.2) emb)
                (current + b.length)).calls,
         (runChunks w total rest
            (((b.take (loaded.filterMap id).length).zip
                ((loaded.filterMap id).map w.encode)).foldl
              (fun d kv => dictInsert d kv.1 kv.2) emb)
            (current + b.length)).encoderRuns + 1,
         warns + (runChunks w total rest
            (((b.take (loaded.filterMap id).length).zip
                ((loaded.filterMap id).map w.encode)).foldl
              (fun d kv => dictInsert d kv.1 kv.2) emb)
            (current + b.length)).warnings⟩ := by
  have he2 : (loaded.filterMap id).isEmpty = false := by
    cases hx : loaded.filterMap id with
    | nil => exact absurd hx he
    | cons y ys => rfl
  simp [runChunks, hbl, he2]

theorem runChunks_calls_bound (w : World) (total : Nat) :
    ∀ (chunks : List (List String)) (emb : EmbeddingMapping) (current : Nat),
      ∀ c ∈ (runChunks w total chunks emb current).calls,
        c.2 = total ∧ current ≤ c.1 ∧ c.1 ≤ current + sumLen chunks := by
  intro chunks
  induction chunks with
  | nil =>
    intro emb current c hc
    simp [runChunks] at hc
  | cons b rest ih =>
    intro emb current c hc
    rcases hbl : batchLoad w b with ⟨res, warns⟩
    cases res with
    | error e =>
      rw [runChunks_cons_error w total b rest emb current e warns hbl] at hc
      simp at hc
    | ok loaded =>
      by_cases he : loaded.filterMap id = []
      · rw [runChunks_cons_skip w total b rest emb current loaded warns hbl he] at hc
        simp only at hc
        rcases ih emb current c hc with ⟨h1, h2, h3⟩
        refine ⟨h1, h2, ?_⟩
        rw [sumLen_cons]
        omega
      · rw [runChunks_cons_go w total b rest emb current loaded warns hbl he] at hc
        simp only [List.mem_cons] at hc
        rcases hc with hc | hc
        · subst hc
          refine ⟨rfl, Nat.le_add_right _ _, ?_⟩
          rw [sumLen_cons]
          simp
        · rcases ih _ (current + b.length) c hc with ⟨h1, h2, h3⟩
          refine ⟨h1, by omega, ?_⟩
          rw [sumLen_cons]
          omega

theorem runChunks_calls_chain (w : World) (total : Nat) :
    ∀ (chunks : List (List String)) (emb : EmbeddingMapping) (current : Nat),
      List.Chain (fun a b => a ≤ b) current
        ((runChunks w total chunks emb current).calls.map Prod.fst) := by
  intro chunks
  induction chunks with
  | nil =>
    intro emb current
    simp [runChunks]
  | cons b rest ih =>
    intro emb current
    rcases hbl : batchLoad w b with ⟨res, warns⟩
    cases res with
    | error e =>
      rw [runChunks_cons_error w total b rest emb current e warns hbl]
      simp
    | ok loaded =>
      by_cases he : loaded.filterMap id = []
      · rw [runChunks_cons_skip w total b rest emb current loaded warns hbl he]
        exact ih emb current
      · rw [runChunks_cons_go w total b rest emb current loaded warns hbl he]
        simp only [List.map_cons]
        exact List.Chain.cons (Nat.le_add_right _ _) (ih _ (current + b.length))

theorem runChunks_keys_sub (w : World) (total : Nat) :
    ∀ (chunks : List (List String)) (emb : EmbeddingMapping) (current : Nat)
      (emb2 : EmbeddingMapping),
      (runChunks w total chunks emb current).result = .ok emb2 →
      ∀ k, k ∈ dictKeys emb2 →
        k ∈ dictKeys emb ∨ ∃ b, b ∈ chunks ∧ k ∈ b := by
  intro chunks
  induction chunks with
  | nil =>
    intro emb current emb2 hres k hk
    simp only [runChunks] at hres
    cases hres
    exact Or.inl hk
  | cons b rest ih =>
    intro emb current emb2 hres k hk
    rcases hbl : batchLoad w b with ⟨res, warns⟩
    cases res with
    | error e =>
      rw [runChunks_cons_error w total b rest emb current e warns hbl] at hres
      cases hres
    | ok loaded =>
      by_cases he : loaded.filterMap id = []
      · rw [runChunks_cons_skip w total b rest emb current loaded warns hbl he] at hres
        simp only at hres
        rcases ih emb current emb2 hres k hk with h | ⟨b2, hb2, hkb2⟩
        · exact Or.inl h
        · exact Or.inr ⟨b2, List.mem_cons_of_mem _ hb2, hkb2⟩
      · rw [runChunks_cons_go w total b rest emb current loaded warns hbl he] at hres
        simp only at hres
        rcases ih _ (current + b.length) emb2 hres k hk with h | ⟨b2, hb2, hkb2⟩
        · rw [mem_dictKeys_foldInsert] at h
          rcases h with h | h
          · exact Or.inl h
          · refine Or.inr ⟨b, List.mem_cons_self _ _, ?_⟩
            rcases List.mem_map.mp h with ⟨pr, hpr, hfst⟩
            have hmem := (List.of_mem_zip hpr).1
            rw [← hfst]
            exact List.mem_of_mem_take hmem
        · exact Or.inr ⟨b2, List.mem_cons_of_mem _ hb2, hkb2⟩

theorem runChunks_allok (w : World) (total : Nat) :
    ∀ (chunks : List (List String)) (emb : EmbeddingMapping) (current : Nat),
      (∀ b ∈ chunks, ∀ p ∈ b, ∃ i, w.decode p = Decode.ok i) →
      ∃ emb2, (runChunks w total chunks emb current).result = .ok emb2
        ∧ ∀ k, k ∈ dictKeys emb2
            ↔ (k ∈ dictKeys emb ∨ ∃ b, b ∈ chunks ∧ k ∈ b) := by
  intro chunks
  induction chunks with
  | nil =>
    intro emb current _
    exact ⟨emb, rfl, by simp [runChunks]⟩
  | cons b rest ih =>
    intro emb current hdec
    rcases batchLoad_allok w b (hdec b (List.mem_cons_self _ _)) with
      ⟨loaded, hbl, hlen⟩
    by_cases hb : b = []
    · have he : loaded.filterMap id = [] := by
        apply List.eq_nil_of_length_eq_zero
        rw [hlen, hb]
        rfl
      rw [runChunks_cons_skip w total b rest emb current loaded 0 hbl he]
      rcases ih emb current (fun b2 hb2 => hdec b2 (List.mem_cons_of_mem _ hb2))
        with ⟨emb2, hres, hkeys⟩
      refine ⟨emb2, hres, fun k => ?_⟩
      rw [hkeys k]
      subst hb
      constructor
      · rintro (h | ⟨b2, hb2, hk⟩)
        · exact Or.inl h
        · exact Or.inr ⟨b2, List.mem_cons_of_mem _ hb2, hk⟩
      · rintro (h | ⟨b2, hb2, hk⟩)
        · exact Or.inl h
        · rcases List.mem_cons.mp hb2 with h2 | h2
          · subst h2
            simp at hk
          · exact Or.inr ⟨b2, h2, hk⟩
    · have hne : loaded.filterMap id ≠ [] := by
        intro h0
        apply hb
        apply List.eq_nil_of_length_eq_zero
        rw [← hlen, h0]
        rfl
      rw [runChunks_cons_go w total b rest emb current loaded 0 hbl hne]
      rcases ih _ (current + b.length)
        (fun b2 hb2 => hdec b2 (List.mem_cons_of_mem _ hb2))
        with ⟨emb2, hres, hkeys⟩
      refine ⟨emb2, hres, fun k => ?_⟩
      rw [hkeys k, mem_dictKeys_foldInsert]
      have htake : b.take (loaded.filterMap id).length = b := by
        rw [hlen]
        exact List.take_length b
      have hmapfst : ((b.take (loaded.filterMap id).length).zip
          ((loaded.filterMap id).map w.encode)).map Prod.fst = b := by
        rw [htake]
        apply List.map_fst_zip
        rw [List.length_map, hlen]
      rw [hmapfst]
      constructor
      · rintro ((h | h) | ⟨b2, hb2, hk⟩)
        · exact Or.inl h
        · exact Or.inr ⟨b, List.mem_cons_self _ _, h⟩
        · exact Or.inr ⟨b2, List.mem_cons_of_mem _ hb2, hk⟩
      · rintro (h | ⟨b2, hb2, hk⟩)
        · exact Or.inl (Or.inl h)
        · rcases List.mem_cons.mp hb2 with h2 | h2
          · subst h2
            exact Or.inl (Or.inr hk)
          · exact Or.inr ⟨b2, h2, hk⟩

theorem runChunks_last_total (w : World) (total : Nat) :
    ∀ (chunks : List (List String)) (emb : EmbeddingMapping) (current : Nat),
      (∀ b ∈ chunks, b ≠ []) →
      (∀ b ∈ chunks, ∀ p ∈ b, ∃ i, w.decode p = Decode.ok i) →
      chunks ≠ [] →
      (runChunks w total chunks emb current).calls.getLast?
        = some (current + sumLen chunks, total) := by
  intro chunks
  induction chunks with
  | nil =>
    intro emb current _ _ h
    exact absurd rfl h
  | cons b rest ih =>
    intro emb current hne hdec _
    rcases batchLoad_allok w b (hdec b (List.mem_cons_self _ _)) with
      ⟨loaded, hbl, hlen⟩
    have hbne := hne b (List.mem_cons_self _ _)
    have hfne : loaded.filterMap id ≠ [] := by
      intro h0
      apply hbne
      apply List.eq_nil_of_length_eq_zero
      rw [← hlen, h0]
      rfl
    rw [runChunks_cons_go w total b rest emb current loaded 0 hbl hfne]
    cases hrest : rest with
    | nil =>
      subst hrest
      simp [runChunks, sumLen]
    | cons r rs =>
      subst hrest
      have ihh := ih
        (((b.take (loaded.filterMap id).length).zip
            ((loaded.filterMap id).map w.encode)).foldl
          (fun d kv => dictInsert d kv.1 kv.2) emb)
        (current + b.length)
        (fun b2 hb2 => hne b2 (List.mem_cons_of_mem _ hb2))
        (fun b2 hb2 => hdec b2 (List.mem_cons_of_mem _ hb2))
        (by simp)
      have hcne : (runChunks w total (r :: rs)
          (((b.take (loaded.filterMap id).length).zip
              ((loaded.filterMap id).map w.encode)).foldl
            (fun d kv => dictInsert d kv.1 kv.2) emb)
          (current + b.length)).calls ≠ [] := by
        intro h0
        rw [h0] at ihh
        simp at ihh
      rcases List.exists_cons_of_ne_nil hcne with ⟨y, ys, hy⟩
      rw [hy] at ihh ⊢
      simp only [List.getLast?_cons_cons]
      rw [ihh]
      have : current + b.length + sumLen (r :: rs)
          = current + sumLen (b :: r :: rs) := by
        rw [sumLen_cons (b := b)]
        omega
      rw [this]

theorem pipeline_keys_sub (w : World) (bs : Nat) (paths : List String)
    (emb2 : EmbeddingMapping)
    (hres : (create_image_embeddings_from_paths w bs paths (some ())).result
      = .ok emb2) :
    ∀ k ∈ dictKeys emb2, k ∈ paths := by
  intro k hk
  rcases runChunks_keys_sub w paths.length (chunkList bs paths) [] 0 emb2 hres k hk
    with h | ⟨b, hb, hkb⟩
  · simp [dictKeys] at h
  · exact (mem_chunkList bs paths k).mpr ⟨b, hb, hkb⟩

theorem pipeline_allok (w : World) (bs : Nat) (paths : List String)
    (hdec : ∀ p ∈ paths, ∃ i, w.decode p = Decode.ok i) :
    ∃ emb2,
      (create_image_embeddings_from_paths w bs paths (some ())).result = .ok emb2
      ∧ ∀ k, k ∈ dictKeys emb2 ↔ k ∈ paths := by
  rcases runChunks_allok w paths.length (chunkList bs paths) [] 0
    (fun b hb p hp => hdec p ((mem_chunkList bs paths p).mpr ⟨b, hb, hp⟩))
    with ⟨emb2, hres, hkeys⟩
  refine ⟨emb2, hres, fun k => ?_⟩
  constructor
  · intro h
    rcases (hkeys k).mp h with h2 | h2
    · simp [dictKeys] at h2
    · exact (mem_chunkList bs paths k).mpr h2
  · intro h
    exact (hkeys k).mpr (Or.inr ((mem_chunkList bs paths k).mp h))

theorem scan_directory_shape (fs : FS) (f : String) (inc : Bool)
    (a : List String) (hs : Indexer.scan_directory fs f inc = .ok a) :
    ∀ p ∈ a, ∃ root file, p = pathJoin root file ∧ is_image_file file = true := by
  intro p hp
  unfold Indexer.scan_directory at hs
  cases inc with
  | true =>
    simp only [if_true] at hs
    cases hs
    rcases List.mem_flatMap.mp hp with ⟨rf, _, hmem⟩
    rcases List.mem_map.mp hmem with ⟨file, hfile, hj⟩
    exact ⟨rf.1, file, hj.symm, (List.mem_filter.mp hfile).2⟩
  | false =>
    simp only [Bool.false_eq_true, if_false] at hs
    by_cases hdir : fs.dirs.contains f
    · rw [if_pos hdir] at hs
      cases hs
      rcases List.mem_map.mp hp with ⟨file, hfile, hj⟩
      exact ⟨f, file, hj.symm, (List.mem_filter.mp hfile).2⟩
    · rw [if_neg hdir] at hs
      cases hs

theorem scanFolders_shape (fs : FS) (inc : Bool) :
    ∀ (folders discovered : List String),
      scanFolders fs inc folders = .ok discovered →
      ∀ p ∈ discovered,
        ∃ root file, p = pathJoin root file ∧ is_image_file file = true := by
  intro folders
  induction folders with
  | nil =>
    intro discovered h p hp
    cases h
    simp at hp
  | cons f rest ih =>
    intro discovered h p hp
    unfold scanFolders at h
    cases hsd : Indexer.scan_directory fs f inc with
    | error e =>
      rw [hsd] at h
      cases h
    | ok a =>
      rw [hsd] at h
      cases hsf : scanFolders fs inc rest with
      | error e =>
        rw [hsf] at h
        cases h
      | ok b =>
        rw [hsf] at h
        cases h
        rcases List.mem_append.mp hp with hpa | hpb
        · exact scan_directory_shape fs f inc a hsd p hpa
        · exact ih b hsf p hpb

theorem update_eq_empty (w : World) (fs : FS) (bs : Nat) (E : EmbeddingMapping)
    (folders : List String) (inc : Bool) (cb : Option Unit)
    (discovered : List String)
    (hscan : scanFolders fs inc folders = .ok discovered)
    (he : imagesToAdd E discovered = []) :
    Indexer.update_image_embeddings w fs bs E folders inc cb
      = ⟨.ok E, [], 0, 0, true⟩ := by
  unfold Indexer.update_image_embeddings
  rw [hscan]
  simp [he]

theorem update_eq_ok (w : World) (fs : FS) (bs : Nat) (E : EmbeddingMapping)
    (folders : List String) (inc : Bool) (cb : Option Unit)
    (discovered : List String) (newEmb : EmbeddingMapping)
    (hscan : scanFolders fs inc folders = .ok discovered)
    (hne : imagesToAdd E discovered ≠ [])
    (hpipe : (create_image_embeddings_from_paths w bs (imagesToAdd E discovered)
        cb).result = .ok newEmb) :
    Indexer.update_image_embeddings w fs bs E folders inc cb
      = ⟨.ok (dictMerge E newEmb),
         (create_image_embeddings_from_paths w bs (imagesToAdd E discovered) cb).calls,
         (create_image_embeddings_from_paths w bs (imagesToAdd E discovered) cb).encoderRuns,
         (create_image_embeddings_from_paths w bs (imagesToAdd E discovered) cb).warnings,
         false⟩ := by
  unfold Indexer.update_image_embeddings
  rw [hscan]
  have hne2 : (imagesToAdd E discovered).isEmpty = false := by
    cases hx : imagesToAdd E discovered with
    | nil => exact absurd hx hne
    | cons y ys => rfl
  simp only [hne2, Bool.false_eq_true, if_false, hpipe]

theorem index_all_missing (w : World) (fs : FS) (bs : Nat) (store : FileStore)
    (fp : String) (folders : List String) (inc : Bool) (cb : Option Unit)
    (hall : folders.length
      = (folders.filter (fun f => ! fs.dirs.contains f)).length) :
    Indexer.index w fs bs store fp folders inc cb
      = ⟨store, .ok (), [], 0, 0, true, false⟩ := by
  unfold Indexer.index
  simp [hall]

theorem index_update_ok (w : World) (fs : FS) (bs : Nat) (store : FileStore)
    (fp : String) (folders : List String) (inc : Bool) (cb : Option Unit)
    (existing merged : EmbeddingMapping)
    (hnotall : ¬ folders.length
      = (folders.filter (fun f => ! fs.dirs.contains f)).length)
    (hload : Indexer.load_image_embeddings store fp = some existing)
    (hupd : (Indexer.update_image_embeddings w fs bs existing folders inc cb).result
      = .ok merged) :
    Indexer.index w fs bs store fp folders inc cb
      = ⟨Indexer.save_image_embeddings store merged fp, .ok (),
         (Indexer.update_image_embeddings w fs bs existing folders inc cb).calls,
         (Indexer.update_image_embeddings w fs bs existing folders inc cb).encoderRuns,
         (Indexer.update_image_embeddings w fs bs existing folders inc cb).warnings,
         false,
         (Indexer.update_image_embeddings w fs bs existing folders inc cb).noNewImages⟩ := by
  unfold Indexer.index
  simp only [hnotall, if_false, hload, hupd]

theorem index_create_ok (w : World) (fs : FS) (bs : Nat) (store : FileStore)
    (fp : String) (folders : List String) (inc : Bool) (cb : Option Unit)
    (emb : EmbeddingMapping)
    (hnotall : ¬ folders.length
      = (folders.filter (fun f => ! fs.dirs.contains f)).length)
    (hload : Indexer.load_image_embeddings store fp = none)
    (hcr : (Indexer.create_image_embeddings w fs bs folders inc cb).result
      = .ok emb) :
    Indexer.index w fs bs store fp folders inc cb
      = ⟨Indexer.save_image_embeddings store emb fp, .ok (),
         (Indexer.create_image_embeddings w fs bs folders inc cb).calls,
         (Indexer.create_image_embeddings w fs bs folders inc cb).encoderRuns,
         (Indexer.create_image_embeddings w fs bs folders inc cb).warnings,
         false, false⟩ := by
  unfold Indexer.index
  simp only [hnotall, if_false, hload, hcr]

theorem scanFolders_cons (fs : FS) (inc : Bool) (f : String)
    (rest : List String) :
    scanFolders fs inc (f :: rest)
      = match Indexer.scan_directory fs f inc with
        | .error e => .error e
        | .ok a =>
          match scanFolders fs inc rest with
          | .error e => .error e
          | .ok b => .ok (a ++ b) := rfl

/-- C2: the index update embeds only the discovered paths not already keyed
in the existing mapping `E` (it passes exactly `imagesToAdd E discovered` =
`set(discovered) − keys(E)` to the pipeline), and returns the union of `E`
with the newly embedded entries: every key of `E` keeps its original vector
unchanged, and every key of the result is a key of `E` or a discovered path
that was not in `E`. -/
theorem c2_add_only_update (w : World) (fs : FS) (bs : Nat)
    (E : EmbeddingMapping) (folders : List String) (inc : Bool)
    (discovered : List String) (newEmb : EmbeddingMapping)
    (hscan : scanFolders fs inc folders = .ok discovered)
    (hne : imagesToAdd E discovered ≠ [])
    (hpipe : (create_image_embeddings_from_paths w bs (imagesToAdd E discovered)
        (some ())).result = .ok newEmb) :
    (Indexer.update_image_embeddings w fs bs E folders inc (some ())).result
        = .ok (dictMerge E newEmb)
    ∧ (∀ p, p ∈ imagesToAdd E discovered ↔ (p ∈ discovered ∧ p ∉ dictKeys E))
    ∧ (∀ k, k ∈ dictKeys E →
        dictLookup (dictMerge E newEmb) k = dictLookup E k)
    ∧ (∀ k, k ∈ dictKeys (dictMerge E newEmb) →
        k ∈ dictKeys E ∨ (k ∈ discovered ∧ k ∉ dictKeys E)) := by
  have hmem : ∀ p, p ∈ imagesToAdd E discovered
      ↔ (p ∈ discovered ∧ p ∉ dictKeys E) := by
    intro p
    unfold imagesToAdd
    rw [List.mem_filter, mem_dedupFirst]
    constructor
    · rintro ⟨h1, h2⟩
      refine ⟨h1, fun hk => ?_⟩
      rw [(dictContains_iff E p).mpr hk] at h2
      simp at h2
    · rintro ⟨h1, h2⟩
      refine ⟨h1, ?_⟩
      cases hc : dictContains E p with
      | false => rfl
      | true => exact absurd ((dictContains_iff E p).mp hc) h2
  have hsub : ∀ k, k ∈ dictKeys newEmb → k ∈ imagesToAdd E discovered :=
    fun k hk => pipeline_keys_sub w bs _ newEmb hpipe k hk
  have hdisj : ∀ k, k ∈ dictKeys newEmb → k ∉ dictKeys E :=
    fun k hk => ((hmem k).mp (hsub k hk)).2
  refine ⟨?_, hmem, ?_, ?_⟩
  · rw [update_eq_ok w fs bs E folders inc (some ()) discovered newEmb
      hscan hne hpipe]
  · intro k hkE
    exact dictLookup_dictMerge_not_mem newEmb E k (fun hk => hdisj k hk hkE)
  · intro k hk
    rcases (mem_dictKeys_dictMerge newEmb E k).mp hk with h | h
    · exact Or.inl h
    · exact Or.inr ((hmem k).mp (hsub k h))

/-- C5 amended: with a non-`None` callback, the first progress call is
`(0, total)`, the reported `current` values are non-decreasing and never
exceed `total`, and every call reports the correct `total`; the final call
reaches `current = total` provided every path decodes (when a batch
consists entirely of undecodable images, its `continue` skips both the
increment and the callback, so the run can end short of `total`). -/
theorem c5_progress_monotone (w : World) (bs : Nat) (paths : List String) :
    ((create_image_embeddings_from_paths w bs paths (some ())).calls.head?
        = some (0, paths.length)
      ∧ List.Chain' (fun a b => a ≤ b)
          ((create_image_embeddings_from_paths w bs paths (some ())).calls.map
            Prod.fst)
      ∧ ∀ c ∈ (create_image_embeddings_from_paths w bs paths (some ())).calls,
          c.1 ≤ paths.length ∧ c.2 = paths.length)
    ∧ ((∀ p ∈ paths, ∃ i, w.decode p = Decode.ok i) →
        (create_image_embeddings_from_paths w bs paths (some ())).calls.getLast?
          = some (paths.length, paths.length)) := by
  have hcalls : (create_image_embeddings_from_paths w bs paths (some ())).calls
      = (0, paths.length)
        :: (runChunks w paths.length (chunkList bs paths) [] 0).calls := rfl
  refine ⟨⟨?_, ?_, ?_⟩, ?_⟩
  · rw [hcalls]
    rfl
  · rw [hcalls]
    simp only [List.map_cons]
    exact runChunks_calls_chain w paths.length (chunkList bs paths) [] 0
  · rw [hcalls]
    intro c hc
    rcases List.mem_cons.mp hc with h | h
    · subst h
      exact ⟨Nat.zero_le _, rfl⟩
    · rcases runChunks_calls_bound w paths.length (chunkList bs paths) [] 0 c h
        with ⟨h1, _, h3⟩
      refine ⟨?_, h1⟩
      rw [sumLen_chunkList] at h3
      omega
  · intro hdec
    rw [hcalls]
    cases hp : paths with
    | nil =>
      subst hp
      rfl
    | cons a tl =>
      subst hp
      have hchne : chunkList bs (a :: tl) ≠ [] := by
        rw [chunkList_cons]
        simp
      have hlast := runChunks_last_total w (a :: tl).length
        (chunkList bs (a :: tl)) [] 0
        (fun b hb => ne_nil_of_mem_chunkList bs (a :: tl) b hb)
        (fun b hb p hp2 =>
          hdec p ((mem_chunkList bs (a :: tl) p).mpr ⟨b, hb, hp2⟩))
        hchne
      have hcne : (runChunks w (a :: tl).length (chunkList bs (a :: tl))
          [] 0).calls ≠ [] := by
        intro h0
        rw [h0] at hlast
        simp at hlast
      rcases List.exists_cons_of_ne_nil hcne with ⟨y, ys, hy⟩
      rw [hy] at hlast ⊢
      rw [List.getLast?_cons_cons, hlast]
      simp [sumLen_chunkList]

/-- C6 amended: every candidate path produced by the directory scans has the
shape `root/file` with a recognized (case-insensitively compared) image
extension, for any root set and either flag value; and the update path's
new-path set is deduplicated.  The fresh-index candidate list itself is NOT
deduplicated (see the counterexample): repeated or overlapping roots yield
repeated paths. -/
theorem c6_candidate_list (fs : FS) (folders : List String) (inc : Bool)
    (discovered : List String)
    (hscan : scanFolders fs inc folders = .ok discovered) :
    (∀ p ∈ discovered,
      ∃ root file, p = pathJoin root file ∧ is_image_file file = true)
    ∧ ∀ E : EmbeddingMapping, (imagesToAdd E discovered).Nodup := by
  refine ⟨scanFolders_shape fs inc folders discovered hscan, fun E => ?_⟩
  exact (nodup_dedupFirst discovered).filter _

/-- C7 amended: if every requested root is missing, `index` logs and returns
without side effects (store untouched, no encoder run, no progress call);
with `include_subdirs = true` a missing root contributes no files because
`os.walk` yields nothing there, so the call proceeds over the existing
roots.  With `include_subdirs = false`, however, a missing root among
existing ones aborts the call (see the counterexample). -/
theorem c7_missing_roots (w : World) (fs : FS) (bs : Nat) (store : FileStore)
    (fp : String) (folders : List String) (inc : Bool) (cb : Option Unit) :
    ((∀ f ∈ folders, f ∉ fs.dirs) →
      Indexer.index w fs bs store fp folders inc cb
        = ⟨store, .ok (), [], 0, 0, true, false⟩)
    ∧ ((∀ d, d ∉ fs.dirs → fs.walk d = []) →
      scanFolders fs true folders
        = scanFolders fs true (folders.filter (fun f => fs.dirs.contains f))) := by
  constructor
  · intro hall
    apply index_all_missing
    have hfe : folders.filter (fun f => ! fs.dirs.contains f) = folders := by
      apply List.filter_eq_self.mpr
      intro f hf
      cases hc : fs.dirs.contains f with
      | false => rfl
      | true => exact absurd (List.mem_of_elem_eq_true hc) (hall f hf)
    rw [hfe]
  · intro hwalk
    induction folders with
    | nil => rfl
    | cons f rest ih =>
      by_cases hf : fs.dirs.contains f = true
      · simp only [List.filter_cons, hf, if_true]
        rw [scanFolders_cons, scanFolders_cons, ih]
      · have hmem : f ∉ fs.dirs := fun hm => hf (List.elem_eq_true_of_mem hm)
        have hscan0 : Indexer.scan_directory fs f true = .ok [] := by
          unfold Indexer.scan_directory
          simp [hwalk f hmem]
        simp only [List.filter_cons, hf, Bool.false_eq_true, if_false]
        rw [scanFolders_cons, hscan0, ← ih]
        cases hr : scanFolders fs true rest with
        | error e => rfl
        | ok b => simp

/-- C8 amended: the query path, when present verbatim as a key, is never
included in a returned result list; and every other key of the mapping
appears in the result provided the query image itself decodes successfully
(an undecodable query yields the empty result, see the counterexample). -/
theorem c8_self_exclusion (w : World) (emb : EmbeddingMapping) (q : String)
    (res : List (String × Int))
    (hres : search_images_by_image w emb q = .ok res) :
    (∀ s : Int, (q, s) ∉ res)
    ∧ (∀ i, w.decode q = Decode.ok i →
        ∀ k, k ∈ dictKeys emb → k ≠ q → ∃ s, (k, s) ∈ res) := by
  cases hd : w.decode q with
  | ioError =>
    simp only [search_images_by_image, load_image, hd] at hres
    exact Except.noConfusion hres
  | unidentified =>
    simp only [search_images_by_image, load_image, hd] at hres
    cases hres
    constructor
    · intro s hs
      simp at hs
    · intro i hdec
      cases hdec
  | ok i0 =>
    simp only [search_images_by_image, load_image, hd] at hres
    cases hres
    constructor
    · intro s hs
      rw [mem_sortByScoreDesc] at hs
      rcases List.mem_map.mp hs with ⟨kv, hkv, heq⟩
      have hne : (kv.1 != q) = true := (List.mem_filter.mp hkv).2
      have : kv.1 = q := congrArg Prod.fst heq
      rw [this] at hne
      simp at hne
    · intro i hdec k hk hkq
      cases hdec
      rcases List.mem_map.mp hk with ⟨kv, hkv, hfst⟩
      subst hfst
      have hkeep : kv ∈ emb.filter (fun kv => kv.1 != q) := by
        rw [List.mem_filter]
        exact ⟨hkv, by simpa using hkq⟩
      refine ⟨w.sim kv.2 (w.encode i0), ?_⟩
      rw [mem_sortByScoreDesc]
      exact List.mem_map.mpr ⟨kv, hkeep, rfl⟩

/-- C9 amended: a query raising `UnidentifiedImageError` (the file is
present but PIL cannot identify it as an image) yields the empty result
without an exception; any other decode failure — a missing file, or
truncated image data raising `OSError` — is not caught by `load_image` and
propagates out of `search_images_by_image`. -/
theorem c9_query_decode_failures (w : World) (emb : EmbeddingMapping)
    (q : String) :
    (w.decode q = Decode.unidentified →
      search_images_by_image w emb q = .ok [])
    ∧ (w.decode q = Decode.ioError →
      search_images_by_image w emb q = .error .osError) := by
  constructor <;> intro h <;> simp [search_images_by_image, load_image, h]

/-- C10 amended: with the default `None` progress callback the batch
pipeline raises `TypeError` at the unconditional initial
`progress_callback(0, total)` — before any image is loaded or embedded and
for every input (the outcome is a constant, independent of the filesystem
and the decoder) — and so do `Indexer.create_image_embeddings` and the
non-empty update path; `Indexer.index` raises whenever it reaches the
pipeline (here: no prior storage and not all roots missing), leaving the
store untouched, but completes without raising when it returns early (see
the counterexample). -/
theorem c10_none_callback (w : World) (fs : FS) (bs : Nat) (store : FileStore)
    (fp : String) (paths folders : List String) (inc : Bool)
    (E : EmbeddingMapping) (discovered : List String) :
    create_image_embeddings_from_paths w bs paths none
        = ⟨.error .typeError, [], 0, 0⟩
    ∧ (scanFolders fs inc folders = .ok discovered →
        Indexer.create_image_embeddings w fs bs folders inc none
          = ⟨.error .typeError, [], 0, 0⟩)
    ∧ (scanFolders fs inc folders = .ok discovered →
        imagesToAdd E discovered ≠ [] →
        Indexer.update_image_embeddings w fs bs E folders inc none
          = ⟨.error .typeError, [], 0, 0, false⟩)
    ∧ (¬ folders.length
          = (folders.filter (fun f => ! fs.dirs.contains f)).length →
        Indexer.load_image_embeddings store fp = none →
        scanFolders fs inc folders = .ok discovered →
        Indexer.index w fs bs store fp folders inc none
          = ⟨store, .error .typeError, [], 0, 0, false, false⟩) := by
  refine ⟨rfl, ?_, ?_, ?_⟩
  · intro hscan
    unfold Indexer.create_image_embeddings
    rw [hscan]
    rfl
  · intro hscan hne
    unfold Indexer.update_image_embeddings
    rw [hscan]
    have hne2 : (imagesToAdd E discovered).isEmpty = false := by
      cases hx : imagesToAdd E discovered with
      | nil => exact absurd hx hne
      | cons y ys => rfl
    simp only [hne2, Bool.false_eq_true, if_false]
    rfl
  · intro hnotall hload hscan
    have hcr : Indexer.create_image_embeddings w fs bs folders inc none
        = ⟨.error .typeError, [], 0, 0⟩ := by
      unfold Indexer.create_image_embeddings
      rw [hscan]
      rfl
    unfold Indexer.index
    simp only [hnotall, if_false, hload, hcr]

/-- C3 amended: when every discovered image decodes successfully, re-running
`index` with no filesystem change is idempotent: the second call finds an
empty new-path set, reports "no new images", performs zero encoder forward
passes, makes no progress call, succeeds, and leaves the persisted store
exactly as the first call wrote it.  (With a decode failure in the first
run this fails, see the counterexample.) -/
theorem c3_idempotent_when_all_decodable (w : World) (fs : FS) (bs : Nat)
    (store : FileStore) (fp : String) (folders : List String) (inc : Bool)
    (discovered : List String)
    (hscan : scanFolders fs inc folders = .ok discovered)
    (hdec : ∀ p ∈ discovered, ∃ i, w.decode p = Decode.ok i)
    (hnotall : ¬ folders.length
      = (folders.filter (fun f => ! fs.dirs.contains f)).length)
    (hfresh : Indexer.load_image_embeddings store fp = none) :
    (Indexer.index w fs bs (Indexer.index w fs bs store fp folders inc
          (some ())).store fp folders inc (some ())).store
      = (Indexer.index w fs bs store fp folders inc (some ())).store
    ∧ (Indexer.index w fs bs (Indexer.index w fs bs store fp folders inc
          (some ())).store fp folders inc (some ())).encoderRuns = 0
    ∧ (Indexer.index w fs bs (Indexer.index w fs bs store fp folders inc
          (some ())).store fp folders inc (some ())).noNewImages = true
    ∧ (Indexer.index w fs bs (Indexer.index w fs bs store fp folders inc
          (some ())).store fp folders inc (some ())).result = .ok ()
    ∧ (Indexer.index w fs bs (Indexer.index w fs bs store fp folders inc
          (some ())).store fp folders inc (some ())).calls = [] := by
  rcases pipeline_allok w bs discovered hdec with ⟨emb1, hres, hkeys⟩
  have hcr : (Indexer.create_image_embeddings w fs bs folders inc
      (some ())).result = .ok emb1 := by
    unfold Indexer.create_image_embeddings
    rw [hscan]
    exact hres
  have h1 := index_create_ok w fs bs store fp folders inc (some ()) emb1
    hnotall hfresh hcr
  have hstore1 : (Indexer.index w fs bs store fp folders inc (some ())).store
      = dictInsert store fp emb1 := by
    rw [h1]
    rfl
  have hload2 : Indexer.load_image_embeddings (dictInsert store fp emb1) fp
      = some emb1 := dictLookup_dictInsert_self store fp emb1
  have htoadd : imagesToAdd emb1 discovered = [] := by
    apply List.filter_eq_nil_iff.mpr
    intro p hp
    have hpd : p ∈ discovered := (mem_dedupFirst discovered p).mp hp
    have hct : dictContains emb1 p = true :=
      (dictContains_iff emb1 p).mpr ((hkeys p).mpr hpd)
    simp [hct]
  have hupd := update_eq_empty w fs bs emb1 folders inc (some ()) discovered
    hscan htoadd
  have h2 := index_update_ok w fs bs (dictInsert store fp emb1) fp folders inc
    (some ()) emb1 emb1 hnotall hload2 (by rw [hupd])
  rw [hstore1, h2, hupd]
  exact ⟨dictInsert_dictInsert_same store fp emb1, rfl, rfl, rfl, rfl⟩

/-- C2 witness: concrete instance — one existing entry, one new image. -/
theorem c2_add_only_update_witness :
    (Indexer.update_image_embeddings wOk fsW2 768 [("old.jpg", 1)] ["D"] true
        (some ())).result
      = .ok (dictMerge [("old.jpg", 1)] [("D/new.jpg", 107)]) :=
  (c2_add_only_update wOk fsW2 768 [("old.jpg", 1)] ["D"] true ["D/new.jpg"]
    [("D/new.jpg", 107)] (by decide) (by decide) (by decide)).1

/-- C3 witness: concrete instance with every image decodable. -/
theorem c3_idempotent_witness :
    (Indexer.index wOk fsW2 768 (Indexer.index wOk fsW2 768 [] "emb.pt" ["D"]
          true (some ())).store "emb.pt" ["D"] true (some ())).store
      = (Indexer.index wOk fsW2 768 [] "emb.pt" ["D"] true (some ())).store
    ∧ (Indexer.index wOk fsW2 768 (Indexer.index wOk fsW2 768 [] "emb.pt" ["D"]
          true (some ())).store "emb.pt" ["D"] true (some ())).encoderRuns
      = 0 := by
  have h := c3_idempotent_when_all_decodable wOk fsW2 768 [] "emb.pt" ["D"]
    true ["D/new.jpg"] (by decide) (fun p _ => ⟨7, rfl⟩) (by decide) (by decide)
  exact ⟨h.1, h.2.1⟩

/-- C5 witness: three decodable images, batch size 2. -/
theorem c5_progress_monotone_witness :
    (create_image_embeddings_from_paths wOk 2 ["a.jpg", "b.jpg", "c.jpg"]
        (some ())).calls.head? = some (0, 3)
    ∧ (create_image_embeddings_from_paths wOk 2 ["a.jpg", "b.jpg", "c.jpg"]
        (some ())).calls.getLast? = some (3, 3) := by
  have h := c5_progress_monotone wOk 2 ["a.jpg", "b.jpg", "c.jpg"]
  exact ⟨h.1.1, h.2 (fun p _ => ⟨7, rfl⟩)⟩

/-- C6 witness: a concrete scanned path has a recognized extension, and a
concrete new-path set is duplicate-free. -/
theorem c6_candidate_list_witness :
    (∃ root file, "D/new.jpg" = pathJoin root file ∧ is_image_file file = true)
    ∧ (imagesToAdd [] ["D/new.jpg"]).Nodup := by
  have h := c6_candidate_list fsW2 ["D"] true ["D/new.jpg"] (by decide)
  exact ⟨h.1 "D/new.jpg" (by decide), h.2 []⟩

/-- C7 witness: all roots missing is a no-op; with recursion enabled, a
missing root contributes nothing to the scan. -/
theorem c7_missing_roots_witness :
    Indexer.index wOk fsW2 768 [] "emb.pt" ["m1", "m2"] true (some ())
        = ⟨[], .ok (), [], 0, 0, true, false⟩
    ∧ scanFolders fsW2 true ["m1", "D"]
        = scanFolders fsW2 true
            (["m1", "D"].filter (fun f => fsW2.dirs.contains f)) := by
  refine ⟨(c7_missing_roots wOk fsW2 768 [] "emb.pt" ["m1", "m2"] true
      (some ())).1 (by decide),
    (c7_missing_roots wOk fsW2 768 [] "emb.pt" ["m1", "D"] true (some ())).2
      ?_⟩
  intro d hd
  have hne : d ≠ "D" := by
    intro he
    exact hd (by rw [he]; decide)
  simp [fsW2, hne]

/-- C8 witness: decodable query, self-excluded, other key present. -/
theorem c8_self_exclusion_witness :
    (∀ s : Int, (("q.jpg", s) : String × Int)
        ∉ ([("b.jpg", 111)] : List (String × Int)))
    ∧ ∃ s : Int, (("b.jpg", s) : String × Int)
        ∈ ([("b.jpg", 111)] : List (String × Int)) := by
  have h := c8_self_exclusion wOk [("q.jpg", 5), ("b.jpg", 4)] "q.jpg"
    [("b.jpg", 111)] (by decide)
  exact ⟨h.1, h.2 7 rfl "b.jpg" (by decide) (by decide)⟩

/-- C9 witness: an unidentifiable query yields `[]`; a truncated-data query
raises. -/
theorem c9_query_decode_failures_witness :
    search_images_by_image wC8 [("x.jpg", 2)] "q.jpg" = .ok []
    ∧ search_images_by_image wC9 [("x.jpg", 2)] "trunc.jpg"
        = .error .osError :=
  ⟨(c9_query_decode_failures wC8 [("x.jpg", 2)] "q.jpg").1 (by decide),
   (c9_query_decode_failures wC9 [("x.jpg", 2)] "trunc.jpg").2 (by decide)⟩

/-- C10 witness: the pipeline with a `None` callback fails immediately; a
fresh `index` reaching the pipeline fails the same way. -/
theorem c10_none_callback_witness :
    create_image_embeddings_from_paths wOk 768 ["p.jpg"] none
        = ⟨.error .typeError, [], 0, 0⟩
    ∧ (Indexer.index wOk fsW2 768 [] "emb.pt" ["D"] true none).result
        = .error .typeError := by
  have h := c10_none_callback wOk fsW2 768 [] "emb.pt" ["p.jpg"] ["D"] true []
    ["D/new.jpg"]
  refine ⟨h.1, ?_⟩
  rw [h.2.2.2 (by decide) (by decide) (by decide)]
